import Mathlib

/-!
# A shallow embedding of the `mytorch` reverse-mode autograd engine

The C++ source (`tensor.h`) defines a class `Tensor` holding an
`xt::xarray<double> data`, an `xt::xarray<double> grad` (zero-initialised to
the shape of `data`), a list `_prev` of (weak) pointers to the operand nodes,
a debug string `_op`, and a closure `_backward` installed by the operation
that produced the node.  `backward()` performs a depth-first post-order
topological sort from the root, seeds the root gradient with ones, and runs
the closures in reverse topological order.

Embedding choices, faithful to the source:

* Arrays are modelled as one-dimensional `List ℚ` (every array occurring in
  the program is one-dimensional; the arithmetic performed is exact in
  `double`, so `ℚ` is a faithful value domain).  xtensor's broadcasting for
  one-dimensional arrays is modelled by `bcastOp`: equal lengths combine
  elementwise, a length-one array broadcasts against the other operand, and
  any other combination is a broadcast error (`none`) — this is what
  `xt::xarray` does for an elementwise binary expression, including on the
  computed assignment `a += e`, which resizes `a` to the broadcast shape.
* Nodes live in an arena (`GraphState := List Tensor`); a node is identified
  by its index.  `std::make_shared` appends at the end, so a node's `_prev`
  indices are strictly smaller than its own index — exactly the construction
  order invariant of the C++ graph (`wfB`).
* The `_backward` closures installed by `operator+` and `operator*` capture
  `out`, `self` and `other`; they are defunctionalized into `BackRule`
  (`.noop` for leaves, `.addR self other`, `.mulR self other`), interpreted
  by `runBackwardStep` with the node's own index standing for the captured
  `out`.
* Operations whose forward value is an elementwise expression can raise a
  broadcast error in C++; they return `Option` here.  Likewise the gradient
  accumulations inside the closures.
-/

/-- Elementwise combination of two 1-D arrays with xtensor broadcasting:
equal lengths combine positionwise, a one-element array broadcasts against
the other operand, anything else is a broadcast error. -/
def bcastOp (f : ℚ → ℚ → ℚ) (a b : List ℚ) : Option (List ℚ) :=
  if a.length = b.length then some (List.zipWith f a b)
  else
    match a, b with
    | [x], b => some (b.map (fun y => f x y))
    | a, [y] => some (a.map (fun x => f x y))
    | _, _ => none

/-- `xt::zeros<double>(shape)` for a 1-D shape. -/
def zerosLike (l : List ℚ) : List ℚ := List.replicate l.length 0

/-- `xt::ones<double>(shape)` for a 1-D shape. -/
def onesLike (l : List ℚ) : List ℚ := List.replicate l.length 1

/-- Defunctionalized `_backward` closure: which operation produced the node,
with the arena indices of the captured `self` and `other` operands.  The
captured `out` is the node carrying the rule. -/
inductive BackRule where
  | noop : BackRule
  | addR (self other : Nat) : BackRule
  | mulR (self other : Nat) : BackRule
deriving Repr, DecidableEq

/-- One graph node: the C++ `Tensor` (data, grad, `_backward`, `_prev`,
`_op`). -/
structure Tensor where
  data : List ℚ
  grad : List ℚ
  rule : BackRule
  _prev : List Nat
  _op : String
deriving Repr, DecidableEq

/-- The arena of all nodes created so far; a node is its index. -/
abbrev GraphState := List Tensor

namespace Autograd

/-- The `data` field of node `i` (empty if the index is dangling). -/
def dataOf (st : GraphState) (i : Nat) : List ℚ :=
  (st[i]?.map Tensor.data).getD []

/-- The `grad` field of node `i` (empty if the index is dangling). -/
def gradOf (st : GraphState) (i : Nat) : List ℚ :=
  (st[i]?.map Tensor.grad).getD []

/-- The `_prev` dependency list of node `i`. -/
def prevOf (st : GraphState) (i : Nat) : List Nat :=
  (st[i]?.map Tensor._prev).getD []

/-- Overwrite node `i`'s gradient (the seeding assignment
`this->grad = xt::ones(...)`). -/
def setGrad (st : GraphState) (i : Nat) (g : List ℚ) : GraphState :=
  match st[i]? with
  | some n => st.set i { n with grad := g }
  | none => st

/-- `node->grad += inc`: xtensor computed assignment, i.e.
`grad = grad + inc` with broadcasting, resizing `grad` to the broadcast
shape; a broadcast mismatch throws (`none`). -/
def accumGrad (st : GraphState) (i : Nat) (inc : List ℚ) : Option GraphState :=
  match st[i]? with
  | some n => (bcastOp (· + ·) n.grad inc).map (fun g => st.set i { n with grad := g })
  | none => some st

/-- `Tensor::create` / the one-argument constructor: a fresh leaf with the
given data, zero gradient of the same shape, no-op backward rule, empty
`_prev`, empty `_op`.  Returns the new state and the new node's index. -/
def create (st : GraphState) (d : List ℚ) : GraphState × Nat :=
  (st ++ [⟨d, zerosLike d, .noop, [], ""⟩], st.length)

/-- `operator+`: forward value `a.data + b.data` (broadcast, may fail),
new node with `_prev = [a, b]`, tag `"+"`, and the add backward closure
capturing `a` and `b`. -/
def add (st : GraphState) (a b : Nat) : Option (GraphState × Nat) := do
  let na ← st[a]?
  let nb ← st[b]?
  let od ← bcastOp (· + ·) na.data nb.data
  some (st ++ [⟨od, zerosLike od, .addR a b, [a, b], "+"⟩], st.length)

/-- `operator*`: forward value `a.data * b.data` (broadcast, may fail),
new node with `_prev = [a, b]`, tag `"*"`, and the multiply backward
closure capturing `a` and `b`. -/
def mul (st : GraphState) (a b : Nat) : Option (GraphState × Nat) := do
  let na ← st[a]?
  let nb ← st[b]?
  let od ← bcastOp (· * ·) na.data nb.data
  some (st ++ [⟨od, zerosLike od, .mulR a b, [a, b], "*"⟩], st.length)

/-- `operator-` (negate): create a fresh leaf holding `[-1.0]`, then
multiply by it. -/
def neg (st : GraphState) (a : Nat) : Option (GraphState × Nat) :=
  let (st1, m) := create st [-1]
  mul st1 a m

/-- `operator+(double)`: wrap the scalar into a fresh one-element leaf,
then add. -/
def addScalar (st : GraphState) (a : Nat) (s : ℚ) : Option (GraphState × Nat) :=
  let (st1, t) := create st [s]
  add st1 a t

/-- Run node `i`'s `_backward` closure.  For `"+"`:
`self->grad += out->grad; other->grad += out->grad`.  For `"*"`:
`self->grad += out->grad * other->data; other->grad += out->grad * self->data`,
each read performed on the current state, in program order. -/
def runBackwardStep (st : GraphState) (i : Nat) : Option GraphState :=
  match st[i]? with
  | none => some st
  | some n =>
    match n.rule with
    | .noop => some st
    | .addR a b => do
        let st1 ← accumGrad st a (gradOf st i)
        accumGrad st1 b (gradOf st1 i)
    | .mulR a b => do
        let t1 ← bcastOp (· * ·) (gradOf st i) (dataOf st b)
        let st1 ← accumGrad st a t1
        let t2 ← bcastOp (· * ·) (gradOf st1 i) (dataOf st1 a)
        accumGrad st1 b t2

/-- The `build_topo` recursive lambda: if `v` is not visited, mark it,
recurse into each dependency, then append `v` to the order (post-order).
The accumulator carries (visited, topo).  `fuel` bounds the recursion
depth; since every dependency index is strictly smaller than its node's
index, `v + 1` fuel always suffices. -/
def buildTopo (st : GraphState) : Nat → Nat → List Nat × List Nat → List Nat × List Nat
  | 0, _, acc => acc
  | fuel + 1, v, (visited, topo) =>
    if v ∈ visited then (visited, topo)
    else
      let acc2 := (prevOf st v).foldl
        (fun a c => buildTopo st fuel c a) (v :: visited, topo)
      (acc2.1, acc2.2 ++ [v])

/-- `Tensor::backward`: build the topological order from the root, seed the
root's gradient with ones (plain assignment), then run each node's
`_backward` closure in reverse topological order. -/
def backward (st : GraphState) (root : Nat) : Option GraphState :=
  let topo := (buildTopo st (root + 1) root ([], [])).2
  let st1 := setGrad st root (onesLike (dataOf st root))
  topo.reverse.foldlM runBackwardStep st1

/-- Construction-order well-formedness of an arena, as the C++ graph has by
construction: every `_prev` index and every index captured by a backward
closure is strictly smaller than the node's own index. -/
def ruleBound (i : Nat) : BackRule → Bool
  | .noop => true
  | .addR a b => decide (a < i) && decide (b < i)
  | .mulR a b => decide (a < i) && decide (b < i)

/-- Boolean well-formedness check over the whole arena. -/
def wfB (st : GraphState) : Bool :=
  (List.range st.length).all fun i =>
    match st[i]? with
    | some n => n._prev.all (fun j => decide (j < i)) && ruleBound i n.rule
    | none => true

/-- Reachability along dependency edges: the set of nodes the backward pass
can see from a chosen root. -/
inductive Reaches (st : GraphState) : Nat → Nat → Prop
  | refl (v : Nat) : Reaches st v v
  | step {v i j : Nat} : Reaches st v i → j ∈ prevOf st i → Reaches st v j

/-- The topological order `backward` builds before running the closures. -/
def topoOrder (st : GraphState) (root : Nat) : List Nat :=
  (buildTopo st (root + 1) root ([], [])).2

/-! ## Concrete scenarios -/

/-- The graph of `tensor.cc`'s `main`: `x = [2.0]`, `y = [3.0]`,
`z = x + y`, `w = z * x`; yields the final arena and the index of `w`. -/
def mainGraph : Option (GraphState × Nat) := do
  let (s1, x) := create [] [2]
  let (s2, y) := create s1 [3]
  let (s3, z) ← add s2 x y
  mul s3 z x

/-- The arena of `mainGraph` after construction, written out. -/
def mainState : GraphState :=
  [⟨[2], [0], .noop, [], ""⟩,
   ⟨[3], [0], .noop, [], ""⟩,
   ⟨[5], [0], .addR 0 1, [0, 1], "+"⟩,
   ⟨[10], [0], .mulR 2 0, [2, 0], "*"⟩]

/-- `main` then `w->backward()`. -/
def runMain : Option GraphState := do
  let (s4, w) ← mainGraph
  backward s4 w

/-- `main`, then `w->backward()` twice in a row. -/
def runMainTwice : Option GraphState := do
  let (s4, w) ← mainGraph
  let s5 ← backward s4 w
  backward s5 w

/-- Negate a two-element leaf and run backward on the product: the
freshly created `[-1]` operand has a one-element value but receives a
two-element gradient contribution. -/
def negBroadcastRun : Option GraphState := do
  let (s1, a) := create [] [1, 2]
  let (s2, r) ← neg s1 a
  backward s2 r

end Autograd

namespace Autograd

/-! ## Shared helper lemmas -/

lemma mainGraph_eq : mainGraph = some (mainState, 3) := by
  norm_num [mainGraph, mainState, create, add, mul, bcastOp, zerosLike]

lemma bcastOp_same_length (f : ℚ → ℚ → ℚ) (a b : List ℚ)
    (h : a.length = b.length) : bcastOp f a b = some (List.zipWith f a b) := by
  unfold bcastOp
  rw [if_pos h]

lemma bcastOp_singleton_right (f : ℚ → ℚ → ℚ) (l : List ℚ) (y : ℚ) :
    bcastOp f l [y] = some (l.map (fun x => f x y)) := by
  match l with
  | [] => rfl
  | [x] => rfl
  | x :: x' :: tl => rfl

lemma zipWith_replicate_zero_add (l : List ℚ) :
    List.zipWith (· + ·) (List.replicate l.length 0) l = l := by
  induction l with
  | nil => rfl
  | cons x tl ih => simp [List.replicate_succ, ih]

lemma zipWith_replicate_one_mul (l : List ℚ) :
    List.zipWith (· * ·) (List.replicate l.length 1) l = l := by
  induction l with
  | nil => rfl
  | cons x tl ih => simp [List.replicate_succ, ih]

lemma zipWith_add_self (l : List ℚ) :
    List.zipWith (· + ·) l l = l.map (fun q => 2 * q) := by
  induction l with
  | nil => rfl
  | cons x tl ih => simp [ih, two_mul]

end Autograd

namespace Autograd

/-! ## Claim theorems -/

set_option maxHeartbeats 1600000 in
/-- C1. The composed scenario of `tensor.cc`: with leaves `x = [2.0]` and
`y = [3.0]`, `z = add(x, y)` has value `[5.0]`, `w = multiply(z, x)` has
value `[10.0]`, and after `backward(w)` the gradients are exactly
`w.gradient = [1.0]`, `z.gradient = [2.0]`, `y.gradient = [2.0]`, and
`x.gradient = [7.0]`. -/
theorem c1_composed_example :
    (mainGraph.map fun p => (dataOf p.1 2, dataOf p.1 3)) = some ([5], [10]) ∧
    (runMain.map fun s => (gradOf s 3, gradOf s 2, gradOf s 1, gradOf s 0)) =
      some ([1], [2], [2], [7]) := by
  norm_num [runMain, runMainTwice, negBroadcastRun, mainGraph, create, add, mul, neg,
    backward, topoOrder, buildTopo, prevOf, dataOf, gradOf, setGrad, accumGrad,
    runBackwardStep, bcastOp, zerosLike, onesLike, List.replicate_succ]

set_option maxHeartbeats 1600000 in
/-- C2, counterexample. Running `backward(w)` twice on the `tensor.cc` graph
does not double every gradient: after one call `y.gradient = [2.0]` and
`w.gradient = [1.0]`, after two calls `y.gradient = [6.0]` (not `[4.0]`) and
`w.gradient = [1.0]` (not `[2.0]`, since the seed overwrites). -/
theorem c2_counterexample :
    (runMain.map fun s => (gradOf s 1, gradOf s 3)) = some ([2], [1]) ∧
    (runMainTwice.map fun s => (gradOf s 1, gradOf s 3)) = some ([6], [1]) ∧
    (6 : ℚ) ≠ 2 * 2 ∧ (1 : ℚ) ≠ 2 * 1 := by
  norm_num [runMain, runMainTwice, negBroadcastRun, mainGraph, create, add, mul, neg,
    backward, topoOrder, buildTopo, prevOf, dataOf, gradOf, setGrad, accumGrad,
    runBackwardStep, bcastOp, zerosLike, onesLike, List.replicate_succ]

set_option maxHeartbeats 1600000 in
/-- C3. Gradient/value shape agreement fails: negating the leaf `[1.0, 2.0]`
creates a one-element `[-1.0]` operand, and `backward` on the product resizes
that operand's gradient to two elements (`grad = [1.0, 2.0]`, value `[-1.0]`)
via the broadcasting computed assignment `grad += out.grad * self.data`. -/
theorem c3_shape_mismatch :
    (negBroadcastRun.map fun s =>
      ((gradOf s 1).length, (dataOf s 1).length, gradOf s 1, dataOf s 1)) =
      some (2, 1, [1, 2], [-1]) ∧ (2 : Nat) ≠ 1 := by
  norm_num [runMain, runMainTwice, negBroadcastRun, mainGraph, create, add, mul, neg,
    backward, topoOrder, buildTopo, prevOf, dataOf, gradOf, setGrad, accumGrad,
    runBackwardStep, bcastOp, zerosLike, onesLike, List.replicate_succ]

/-- C9. Leaf creation: `create` appends a node holding exactly the given
value, an all-zero gradient of the same length, the no-op backward rule, no
dependencies and an empty operator tag; its index is the old arena size, and
invoking its backward rule leaves the state unchanged.  (`create` is total:
no error conditions.) -/
theorem c9_leaf_creation (st : GraphState) (d : List ℚ) :
    (create st d).2 = st.length ∧
    (create st d).1[st.length]? =
      some ⟨d, List.replicate d.length 0, .noop, [], ""⟩ ∧
    runBackwardStep (create st d).1 (create st d).2 = some (create st d).1 := by
  refine ⟨rfl, ?_, ?_⟩
  · simp [create, zerosLike, List.getElem?_concat_length]
  · simp [create, runBackwardStep, List.getElem?_concat_length]

/-- C8. Negate is sugar for multiplication: `neg st a` first creates a fresh
leaf holding `[-1.0]` (zero gradient, no-op rule, no dependencies), then
multiplies: the output's value is `a`'s value elementwise times `-1`
(broadcast), its dependency list is `[a, m]` in that order, its tag is `"*"`
and its backward rule is the multiply rule capturing `a` and `m`. -/
theorem c8_negate_is_multiply (st : GraphState) (a : Nat) (na : Tensor)
    (h : st[a]? = some na) :
    neg st a = some
      (st ++ [⟨[-1], [0], .noop, [], ""⟩,
              ⟨na.data.map (fun x => x * (-1)),
               zerosLike (na.data.map (fun x => x * (-1))),
               .mulR a st.length, [a, st.length], "*"⟩],
       st.length + 1) := by
  have ha : a < st.length := by
    by_contra hlt
    rw [List.getElem?_eq_none (Nat.le_of_not_lt hlt)] at h
    exact Option.noConfusion h
  have h1 : (st ++ [(⟨[-1], [0], .noop, [], ""⟩ : Tensor)])[a]? = some na := by
    rw [List.getElem?_append_left ha]; exact h
  have h2 : (st ++ [(⟨[-1], [0], .noop, [], ""⟩ : Tensor)])[st.length]? =
      some ⟨[-1], [0], .noop, [], ""⟩ := List.getElem?_concat_length st _
  simp only [neg, create, zerosLike, List.length_singleton, List.replicate_one,
    mul, Option.bind_eq_bind]
  rw [h1, h2]
  simp only [Option.some_bind, bcastOp_singleton_right]
  simp [List.append_assoc]

/-- C8 witness: negate applied to a singleton arena holding the leaf `[2.0]`. -/
theorem c8_witness :
    neg [(⟨[2], [0], .noop, [], ""⟩ : Tensor)] 0 = some
      ([⟨[2], [0], .noop, [], ""⟩, ⟨[-1], [0], .noop, [], ""⟩,
        ⟨([2] : List ℚ).map (fun x => x * (-1)),
         zerosLike (([2] : List ℚ).map (fun x => x * (-1))),
         .mulR 0 1, [0, 1], "*"⟩], 2) :=
  c8_negate_is_multiply [⟨[2], [0], .noop, [], ""⟩] 0 ⟨[2], [0], .noop, [], ""⟩ rfl


/-- C5. Multiply chain rule: for two distinct zero-gradient leaves `a`, `b`
with equal-length values `u`, `v`, after `backward(multiply(a, b))` the
gradients are `a.grad = b.value` and `b.grad = a.value`, and the pass
succeeds. -/
theorem c5_mul_chain_rule (u v : List ℚ) (h : u.length = v.length) :
    ∃ stF : GraphState,
      (do
        let (s1, a) := create [] u
        let (s2, b) := create s1 v
        let (s3, r) ← mul s2 a b
        backward s3 r) = some stF ∧
      gradOf stF 0 = v ∧ gradOf stF 1 = u := by
  have hw : (List.zipWith (· * ·) u v).length = v.length := by
    rw [List.length_zipWith, h, Nat.min_self]
  refine ⟨[⟨u, v, .noop, [], ""⟩, ⟨v, u, .noop, [], ""⟩,
    ⟨List.zipWith (· * ·) u v, onesLike (List.zipWith (· * ·) u v),
     .mulR 0 1, [0, 1], "*"⟩], ?_, rfl, rfl⟩
  simp only [create, zerosLike, mul, Option.bind_eq_bind]
  simp only [List.nil_append, List.singleton_append, List.length_cons, List.length_nil]
  simp only [List.getElem?_cons_zero, List.getElem?_cons_succ, Option.some_bind]
  rw [bcastOp_same_length _ _ _ h]
  simp only [Option.some_bind, backward, topoOrder]
  simp only [buildTopo, prevOf, List.getElem?_cons_zero, List.getElem?_cons_succ,
    Option.map_some, Option.getD_some, List.foldl, List.mem_singleton,
    List.mem_cons, List.not_mem_nil, or_false, if_false, if_true, List.reverse,
    List.reverseAux, List.foldlM]
  have e1 : bcastOp (· * ·) (List.replicate v.length 1) v = some v := by
    rw [bcastOp_same_length _ _ _ (by simp), zipWith_replicate_one_mul]
  have e2 : bcastOp (· * ·) (List.replicate v.length 1) u = some u := by
    rw [← h, bcastOp_same_length _ _ _ (by simp), zipWith_replicate_one_mul]
  have e3 : bcastOp (· + ·) (List.replicate u.length 0) v = some v := by
    rw [h, bcastOp_same_length _ _ _ (by simp), zipWith_replicate_zero_add]
  have e4 : bcastOp (· + ·) (List.replicate v.length 0) u = some u := by
    rw [← h, bcastOp_same_length _ _ _ (by simp), zipWith_replicate_zero_add]
  simp [runBackwardStep, setGrad, accumGrad, gradOf, dataOf, e1, e2, e3, e4,
    onesLike, hw]

/-- C5 witness: the multiply chain rule at `u = [2.0]`, `v = [3.0]`. -/
theorem c5_witness :
    ([2] : List ℚ).length = ([3] : List ℚ).length ∧
    ∃ stF : GraphState,
      (do
        let (s1, a) := create [] ([2] : List ℚ)
        let (s2, b) := create s1 [3]
        let (s3, r) ← mul s2 a b
        backward s3 r) = some stF ∧
      gradOf stF 0 = [3] ∧ gradOf stF 1 = [2] :=
  ⟨rfl, c5_mul_chain_rule [2] [3] rfl⟩

/-- C6. Add chain rule: for two distinct zero-gradient leaves `a`, `b` with
equal-length values `u`, `v`, after `backward(add(a, b))` both gradients are
all-ones arrays of the operands' shapes, and the pass succeeds. -/
theorem c6_add_chain_rule (u v : List ℚ) (h : u.length = v.length) :
    ∃ stF : GraphState,
      (do
        let (s1, a) := create [] u
        let (s2, b) := create s1 v
        let (s3, r) ← add s2 a b
        backward s3 r) = some stF ∧
      gradOf stF 0 = onesLike u ∧ gradOf stF 1 = onesLike v := by
  have hw : (List.zipWith (· + ·) u v).length = v.length := by
    rw [List.length_zipWith, h, Nat.min_self]
  refine ⟨[⟨u, List.replicate v.length 1, .noop, [], ""⟩,
    ⟨v, List.replicate v.length 1, .noop, [], ""⟩,
    ⟨List.zipWith (· + ·) u v, onesLike (List.zipWith (· + ·) u v),
     .addR 0 1, [0, 1], "+"⟩], ?_, by simp [gradOf, onesLike, h],
    by simp [gradOf, onesLike]⟩
  simp only [create, zerosLike, add, Option.bind_eq_bind]
  simp only [List.nil_append, List.singleton_append, List.length_cons, List.length_nil]
  simp only [List.getElem?_cons_zero, List.getElem?_cons_succ, Option.some_bind]
  rw [bcastOp_same_length _ _ _ h]
  simp only [Option.some_bind, backward, topoOrder]
  simp only [buildTopo, prevOf, List.getElem?_cons_zero, List.getElem?_cons_succ,
    Option.map_some, Option.getD_some, List.foldl, List.mem_singleton,
    List.mem_cons, List.not_mem_nil, or_false, if_false, if_true, List.reverse,
    List.reverseAux, List.foldlM]
  have e1 : bcastOp (· + ·) (List.replicate u.length 0) (List.replicate v.length 1) =
      some (List.replicate v.length 1) := by
    rw [h, bcastOp_same_length _ _ _ (by simp)]
    simp
  have e2 : bcastOp (· + ·) (List.replicate v.length 0) (List.replicate v.length 1) =
      some (List.replicate v.length 1) := by
    rw [bcastOp_same_length _ _ _ (by simp)]
    simp
  simp [runBackwardStep, setGrad, accumGrad, gradOf, dataOf, e1, e2, onesLike, hw]

/-- C6 witness: the add chain rule at `u = [2.0]`, `v = [3.0]`. -/
theorem c6_witness :
    ([2] : List ℚ).length = ([3] : List ℚ).length ∧
    ∃ stF : GraphState,
      (do
        let (s1, a) := create [] ([2] : List ℚ)
        let (s2, b) := create s1 [3]
        let (s3, r) ← add s2 a b
        backward s3 r) = some stF ∧
      gradOf stF 0 = onesLike [2] ∧ gradOf stF 1 = onesLike [3] :=
  ⟨rfl, c6_add_chain_rule [2] [3] rfl⟩

/-- C4. Diamond accumulation: for a zero-gradient leaf `x` with value `u`,
building `p = multiply(x, x)` with `x` wired as both operands and running
`backward(p)` yields `x.grad = 2 * x.value` elementwise (both operand slots
contribute); in particular `[3.0] ↦ [6.0]`. -/
theorem c4_diamond_accumulation (u : List ℚ) :
    ∃ stF : GraphState,
      (do
        let (s1, x) := create [] u
        let (s2, p) ← mul s1 x x
        backward s2 p) = some stF ∧
      gradOf stF 0 = u.map (fun q => 2 * q) := by
  have hw : (List.zipWith (· * ·) u u).length = u.length := by
    rw [List.length_zipWith, Nat.min_self]
  refine ⟨[⟨u, u.map (fun q => 2 * q), .noop, [], ""⟩,
    ⟨List.zipWith (· * ·) u u, onesLike (List.zipWith (· * ·) u u),
     .mulR 0 0, [0, 0], "*"⟩], ?_, rfl⟩
  simp only [create, zerosLike, mul, Option.bind_eq_bind]
  simp only [List.nil_append, List.singleton_append, List.length_cons, List.length_nil]
  simp only [List.getElem?_cons_zero, List.getElem?_cons_succ, Option.some_bind]
  rw [bcastOp_same_length _ _ _ rfl]
  simp only [Option.some_bind, backward, topoOrder]
  simp only [buildTopo, prevOf, List.getElem?_cons_zero, List.getElem?_cons_succ,
    Option.map_some, Option.getD_some, List.foldl, List.mem_singleton,
    List.mem_cons, List.not_mem_nil, or_false, if_false, if_true, List.reverse,
    List.reverseAux, List.foldlM]
  have e1 : bcastOp (· * ·) (List.replicate u.length 1) u = some u := by
    rw [bcastOp_same_length _ _ _ (by simp), zipWith_replicate_one_mul]
  have e2 : bcastOp (· + ·) (List.replicate u.length 0) u = some u := by
    rw [bcastOp_same_length _ _ _ (by simp), zipWith_replicate_zero_add]
  have e3 : bcastOp (· + ·) u u = some (u.map (fun q => 2 * q)) := by
    rw [bcastOp_same_length _ _ _ rfl, zipWith_add_self]
  simp [runBackwardStep, setGrad, accumGrad, gradOf, dataOf, e1, e2, e3,
    onesLike, hw]

/-- C2, amended. For `root = multiply(a, b)` over two distinct zero-gradient
leaves with equal-length values, a second `backward(root)` doubles the
leaves' gradients (`2 * b.value`, `2 * a.value`), but the root's own
gradient is overwritten back to ones by the seeding step, not doubled. -/
theorem c2_amended_accumulation (u v : List ℚ) (h : u.length = v.length) :
    ∃ stF : GraphState,
      (do
        let (s1, a) := create [] u
        let (s2, b) := create s1 v
        let (s3, r) ← mul s2 a b
        let s4 ← backward s3 r
        backward s4 r) = some stF ∧
      gradOf stF 0 = v.map (fun q => 2 * q) ∧
      gradOf stF 1 = u.map (fun q => 2 * q) ∧
      gradOf stF 2 = onesLike (dataOf stF 2) := by
  have hw : (List.zipWith (· * ·) u v).length = v.length := by
    rw [List.length_zipWith, h, Nat.min_self]
  refine ⟨[⟨u, v.map (fun q => 2 * q), .noop, [], ""⟩,
    ⟨v, u.map (fun q => 2 * q), .noop, [], ""⟩,
    ⟨List.zipWith (· * ·) u v, onesLike (List.zipWith (· * ·) u v),
     .mulR 0 1, [0, 1], "*"⟩], ?_, rfl, rfl, by simp [gradOf, dataOf]⟩
  simp only [create, zerosLike, mul, Option.bind_eq_bind]
  simp only [List.nil_append, List.singleton_append, List.length_cons, List.length_nil]
  simp only [List.getElem?_cons_zero, List.getElem?_cons_succ, Option.some_bind]
  rw [bcastOp_same_length _ _ _ h]
  simp only [Option.some_bind, backward, topoOrder]
  simp only [buildTopo, prevOf, List.getElem?_cons_zero, List.getElem?_cons_succ,
    Option.map_some, Option.getD_some, List.foldl, List.mem_singleton,
    List.mem_cons, List.not_mem_nil, or_false, if_false, if_true, List.reverse,
    List.reverseAux, List.foldlM]
  have e1 : bcastOp (· * ·) (List.replicate v.length 1) v = some v := by
    rw [bcastOp_same_length _ _ _ (by simp), zipWith_replicate_one_mul]
  have e2 : bcastOp (· * ·) (List.replicate v.length 1) u = some u := by
    rw [← h, bcastOp_same_length _ _ _ (by simp), zipWith_replicate_one_mul]
  have e3 : bcastOp (· + ·) (List.replicate u.length 0) v = some v := by
    rw [h, bcastOp_same_length _ _ _ (by simp), zipWith_replicate_zero_add]
  have e4 : bcastOp (· + ·) (List.replicate v.length 0) u = some u := by
    rw [← h, bcastOp_same_length _ _ _ (by simp), zipWith_replicate_zero_add]
  have e5 : bcastOp (· + ·) v v = some (v.map (fun q => 2 * q)) := by
    rw [bcastOp_same_length _ _ _ rfl, zipWith_add_self]
  have e6 : bcastOp (· + ·) u u = some (u.map (fun q => 2 * q)) := by
    rw [bcastOp_same_length _ _ _ rfl, zipWith_add_self]
  simp [runBackwardStep, setGrad, accumGrad, gradOf, dataOf, e1, e2, e3, e4,
    e5, e6, onesLike, hw]

/-- C2 amended witness: double backward on `multiply` at `u = [2.0]`,
`v = [3.0]`. -/
theorem c2_amended_witness :
    ([2] : List ℚ).length = ([3] : List ℚ).length ∧
    ∃ stF : GraphState,
      (do
        let (s1, a) := create [] ([2] : List ℚ)
        let (s2, b) := create s1 [3]
        let (s3, r) ← mul s2 a b
        let s4 ← backward s3 r
        backward s4 r) = some stF ∧
      gradOf stF 0 = ([3] : List ℚ).map (fun q => 2 * q) ∧
      gradOf stF 1 = ([2] : List ℚ).map (fun q => 2 * q) ∧
      gradOf stF 2 = onesLike (dataOf stF 2) :=
  ⟨rfl, c2_amended_accumulation [2] [3] rfl⟩

end Autograd
namespace Autograd

lemma getElem?_some_lt {st : GraphState} {i : Nat} {n : Tensor}
    (h : st[i]? = some n) : i < st.length := by
  by_contra hlt
  rw [List.getElem?_eq_none (Nat.le_of_not_lt hlt)] at h
  exact Option.noConfusion h

lemma wfB_prevOf {st : GraphState} (hw : wfB st = true) :
    ∀ i, ∀ j ∈ prevOf st i, j < i := by
  intro i j hj
  unfold prevOf at hj
  cases hg : st[i]? with
  | none => rw [hg] at hj; simp at hj
  | some n =>
    rw [hg] at hj
    simp at hj
    have hi : i < st.length := getElem?_some_lt hg
    have h1 := List.all_eq_true.mp hw i (List.mem_range.mpr hi)
    rw [hg] at h1
    simp only [Bool.and_eq_true] at h1
    exact of_decide_eq_true (List.all_eq_true.mp h1.1 j hj)

lemma wfB_rule {st : GraphState} (hw : wfB st = true) {i : Nat} {n : Tensor}
    (h : st[i]? = some n) : ruleBound i n.rule = true := by
  have hi : i < st.length := getElem?_some_lt h
  have h1 := List.all_eq_true.mp hw i (List.mem_range.mpr hi)
  rw [h] at h1
  simp only [Bool.and_eq_true] at h1
  exact h1.2

lemma reaches_le {st : GraphState} (hp : ∀ i, ∀ j ∈ prevOf st i, j < i)
    {v i : Nat} (h : Reaches st v i) : i ≤ v := by
  induction h with
  | refl => exact Nat.le_refl _
  | step h1 h2 ih => exact Nat.le_of_lt (Nat.lt_of_lt_of_le (hp _ _ h2) ih)

/-- The DFS invariant tying the visited set and the partial topological
order together: the order has no duplicates, is contained in the visited
set, and is already dependency-closed and dependency-ordered. -/
def TopoInv (st : GraphState) (visited topo : List Nat) : Prop :=
  topo.Nodup ∧ (∀ i ∈ topo, i ∈ visited) ∧
  (∀ i ∈ topo, ∀ j ∈ prevOf st i, j ∈ topo ∧ topo.indexOf j < topo.indexOf i)

/-- Postcondition of one `build_topo` call on `v`. -/
def TopoPost (st : GraphState) (v : Nat) (visited topo : List Nat)
    (r : List Nat × List Nat) : Prop :=
  (∃ t, r.2 = topo ++ t) ∧
  (∀ j ∈ visited, j ∈ r.1) ∧
  TopoInv st r.1 r.2 ∧
  v ∈ r.2 ∧
  (∀ j ∈ r.1, j ∉ r.2 → j ∈ visited ∧ j ∉ topo) ∧
  (∀ i ∈ r.2, i ∈ topo ∨ Reaches st v i) ∧
  (∀ i ∈ r.2, i ∈ topo ∨ i ∉ visited)

lemma reaches_trans {st : GraphState} {a b c : Nat}
    (h1 : Reaches st a b) (h2 : Reaches st b c) : Reaches st a c := by
  induction h2 with
  | refl => exact h1
  | step h3 h4 ih => exact Reaches.step ih h4

/-- Invariant of the fold over a node's children inside `build_topo`:
relative to the enclosing call on `v` (entered with accumulator
`(visited, topo)` and `v` freshly marked). -/
def FoldInv (st : GraphState) (v : Nat) (visited topo : List Nat)
    (p : List Nat × List Nat) : Prop :=
  TopoInv st p.1 p.2 ∧
  (∃ t, p.2 = topo ++ t) ∧
  v ∈ p.1 ∧
  (∀ j ∈ visited, j ∈ p.1) ∧
  (∀ j ∈ p.1, j ∉ p.2 → j = v ∨ (j ∈ visited ∧ j ∉ topo ∧ v < j)) ∧
  (∀ i ∈ p.2, i ∈ topo ∨ Reaches st v i) ∧
  (∀ i ∈ p.2, i ∈ topo ∨ (i ∉ visited ∧ i ≠ v))

lemma buildTopo_spec (st : GraphState) (hp : ∀ i, ∀ j ∈ prevOf st i, j < i) :
    ∀ fuel v visited topo, v < fuel → TopoInv st visited topo →
    (∀ j ∈ visited, j ∉ topo → v < j) →
    TopoPost st v visited topo (buildTopo st fuel v (visited, topo)) := by
  intro fuel
  induction fuel with
  | zero => intro v _ _ hv; exact absurd hv (Nat.not_lt_zero v)
  | succ fuel ih =>
    intro v visited topo hv hinv hstack
    rw [buildTopo]
    by_cases hvis : v ∈ visited
    · rw [if_pos hvis]
      have hvt : v ∈ topo := by
        by_contra hvt
        exact Nat.lt_irrefl v (hstack v hvis hvt)
      exact ⟨⟨[], by simp⟩, fun j hj => hj, hinv, hvt,
        fun j hj hj2 => ⟨hj, hj2⟩, fun i hi => Or.inl hi, fun i hi => Or.inl hi⟩
    · rw [if_neg hvis]
      have haux : ∀ (l : List Nat), (∀ c ∈ l, c ∈ prevOf st v) →
          ∀ vis1 topo1, FoldInv st v visited topo (vis1, topo1) →
          FoldInv st v visited topo
              (l.foldl (fun a c => buildTopo st fuel c a) (vis1, topo1)) ∧
            (∀ c ∈ l, c ∈ (l.foldl (fun a c => buildTopo st fuel c a) (vis1, topo1)).2) ∧
            (∀ i ∈ topo1, i ∈ (l.foldl (fun a c => buildTopo st fuel c a) (vis1, topo1)).2) := by
        intro l
        induction l with
        | nil =>
          intro _ vis1 topo1 hF
          exact ⟨hF, fun c hc => absurd hc (List.not_mem_nil c), fun i hi => hi⟩
        | cons c l ihl =>
          intro hl vis1 topo1 hF
          obtain ⟨hinv1, ⟨t1, ht1⟩, hv1, hvisited1, hstack1, hreach1, hfresh1⟩ := hF
          have ht1' : topo1 = topo ++ t1 := ht1
          have hcp : c ∈ prevOf st v := hl c (List.mem_cons_self c l)
          have hcv : c < v := hp v c hcp
          have hcf : c < fuel := Nat.lt_of_lt_of_le hcv (Nat.lt_succ_iff.mp hv)
          have hstk : ∀ j ∈ vis1, j ∉ topo1 → c < j := by
            intro j hj hjt
            rcases hstack1 j hj hjt with h | ⟨_, _, h⟩
            · exact h ▸ hcv
            · exact Nat.lt_trans hcv h
          have post := ih c vis1 topo1 hcf hinv1 hstk
          obtain ⟨⟨t2, ht2⟩, hmono2, hinv2, hcin2, hres2, hreach2, hfresh2⟩ := post
          have hF2 : FoldInv st v visited topo (buildTopo st fuel c (vis1, topo1)) := by
            refine ⟨hinv2, ⟨t1 ++ t2, by rw [ht2, ht1', List.append_assoc]⟩,
              hmono2 v hv1, fun j hj => hmono2 j (hvisited1 j hj), ?_, ?_, ?_⟩
            · intro j hj hjt
              obtain ⟨hj1, hjt1⟩ := hres2 j hj hjt
              exact hstack1 j hj1 hjt1
            · intro i hi
              rcases hreach2 i hi with h | h
              · exact hreach1 i h
              · exact Or.inr (reaches_trans (Reaches.step (Reaches.refl v) hcp) h)
            · intro i hi
              rcases hfresh2 i hi with h | h
              · exact hfresh1 i h
              · exact Or.inr ⟨fun hiv => h (hvisited1 i hiv), fun hie => h (hie ▸ hv1)⟩
          have hmem2 : ∀ i ∈ topo1, i ∈ (buildTopo st fuel c (vis1, topo1)).2 := by
            intro i hi
            rw [ht2]
            exact List.mem_append_left _ hi
          rcases hr2 : buildTopo st fuel c (vis1, topo1) with ⟨vis2, topo2⟩
          rw [hr2] at hF2 hmem2 hcin2
          have hrest := ihl (fun x hx => hl x (List.mem_cons_of_mem c hx)) vis2 topo2 hF2
          simp only [List.foldl_cons, hr2]
          refine ⟨hrest.1, ?_, fun i hi => hrest.2.2 i (hmem2 i hi)⟩
          intro x hx
          rcases List.mem_cons.mp hx with h | h
          · exact h ▸ hrest.2.2 c hcin2
          · exact hrest.2.1 x h
      have h0 : FoldInv st v visited topo (v :: visited, topo) := by
        refine ⟨⟨hinv.1, fun i hi => List.mem_cons_of_mem _ (hinv.2.1 i hi), hinv.2.2⟩,
          ⟨[], (List.append_nil topo).symm⟩, List.mem_cons_self v visited,
          fun j hj => List.mem_cons_of_mem _ hj, ?_, fun i hi => Or.inl hi,
          fun i hi => Or.inl hi⟩
        intro j hj hjt
        rcases List.mem_cons.mp hj with h | h
        · exact Or.inl h
        · exact Or.inr ⟨h, hjt, hstack j h hjt⟩
      obtain ⟨⟨hinvF, ⟨tF, htF⟩, hvF, hvisF, hstackF, hreachF, hfreshF⟩, hchF, hliftF⟩ :=
        haux (prevOf st v) (fun c hc => hc) (v :: visited) topo h0
      show TopoPost st v visited topo
        (((prevOf st v).foldl (fun a c => buildTopo st fuel c a) (v :: visited, topo)).1,
         ((prevOf st v).foldl (fun a c => buildTopo st fuel c a) (v :: visited, topo)).2 ++ [v])
      set r := (prevOf st v).foldl (fun a c => buildTopo st fuel c a) (v :: visited, topo)
        with hr
      have hvnot : v ∉ r.2 := by
        intro hvr
        rcases hfreshF v hvr with h | ⟨_, h2⟩
        · exact hvis (hinv.2.1 v h)
        · exact h2 rfl
      refine ⟨⟨tF ++ [v], by rw [htF, List.append_assoc]⟩, fun j hj => hvisF j hj,
        ⟨?_, ?_, ?_⟩, List.mem_append_right _ (List.mem_singleton.mpr rfl), ?_, ?_, ?_⟩
      · rw [List.nodup_append]
        exact ⟨hinvF.1, List.nodup_singleton v,
          fun a ha hav => hvnot ((List.mem_singleton.mp hav) ▸ ha)⟩
      · intro i hi
        rcases List.mem_append.mp hi with h | h
        · exact hinvF.2.1 i h
        · exact (List.mem_singleton.mp h) ▸ hvF
      · intro i hi j hj
        rcases List.mem_append.mp hi with h | h
        · obtain ⟨hjm, hjo⟩ := hinvF.2.2 i h j hj
          refine ⟨List.mem_append_left _ hjm, ?_⟩
          rw [List.indexOf_append_of_mem hjm, List.indexOf_append_of_mem h]
          exact hjo
        · have hiv : i = v := List.mem_singleton.mp h
          subst hiv
          have hjm : j ∈ r.2 := hchF j hj
          refine ⟨List.mem_append_left _ hjm, ?_⟩
          rw [List.indexOf_append_of_mem hjm, List.indexOf_append_of_not_mem hvnot,
            List.indexOf_cons_self]
          have := List.indexOf_lt_length.mpr hjm
          omega
      · intro j hj hjn
        have hj2 : j ∉ r.2 := fun h => hjn (List.mem_append_left _ h)
        have hjv : j ≠ v := by
          intro h
          exact hjn (List.mem_append_right _ (List.mem_singleton.mpr h))
        rcases hstackF j hj hj2 with h | ⟨a, b, _⟩
        · exact absurd h hjv
        · exact ⟨a, b⟩
      · intro i hi
        rcases List.mem_append.mp hi with h | h
        · exact hreachF i h
        · obtain rfl := List.mem_singleton.mp h
          exact Or.inr (Reaches.refl _)
      · intro i hi
        rcases List.mem_append.mp hi with h | h
        · rcases hfreshF i h with h2 | ⟨h2, _⟩
          · exact Or.inl h2
          · exact Or.inr h2
        · exact (List.mem_singleton.mp h) ▸ Or.inr hvis

/-- Summary of the DFS for a whole `backward` call: the topological order is
duplicate-free, contains exactly the nodes reachable from the root, and puts
every dependency strictly before its dependent. -/
lemma topoOrder_spec (st : GraphState) (root : Nat) (hw : wfB st = true) :
    (topoOrder st root).Nodup ∧
    (∀ i, i ∈ topoOrder st root ↔ Reaches st root i) ∧
    (∀ i ∈ topoOrder st root, ∀ j ∈ prevOf st i,
      j ∈ topoOrder st root ∧
      (topoOrder st root).indexOf j < (topoOrder st root).indexOf i) := by
  have hp := wfB_prevOf hw
  have post := buildTopo_spec st hp (root + 1) root [] [] (Nat.lt_succ_self root)
    ⟨List.nodup_nil, by simp, by simp⟩ (by simp)
  obtain ⟨⟨t, ht⟩, _, hinv, hroot, _, hreach, _⟩ := post
  refine ⟨hinv.1, ?_, hinv.2.2⟩
  intro i
  constructor
  · intro hi
    rcases hreach i hi with h | h
    · exact absurd h (List.not_mem_nil i)
    · exact h
  · intro hr
    induction hr with
    | refl => exact hroot
    | step h1 h2 ih => exact (hinv.2.2 _ ih _ h2).1

/-- C7. Topological order: for every well-formed graph, the order built by
`backward`'s depth-first traversal from the root contains exactly the
reachable nodes with no duplicates (even under diamond sharing), places
every node strictly after all nodes it depends on, and `backward` invokes
the backward rule once per entry of the reversed order — hence exactly once
per reachable node. -/
theorem c7_topological_order (st : GraphState) (root : Nat) (hw : wfB st = true) :
    (∀ i, i ∈ topoOrder st root ↔ Reaches st root i) ∧
    (topoOrder st root).Nodup ∧
    (∀ i, Reaches st root i → (topoOrder st root).reverse.count i = 1) ∧
    (∀ i ∈ topoOrder st root, ∀ j ∈ prevOf st i,
      j ∈ topoOrder st root ∧
      (topoOrder st root).indexOf j < (topoOrder st root).indexOf i) ∧
    backward st root =
      (topoOrder st root).reverse.foldlM runBackwardStep
        (setGrad st root (onesLike (dataOf st root))) := by
  obtain ⟨hnd, hmem, hord⟩ := topoOrder_spec st root hw
  refine ⟨hmem, hnd, ?_, hord, rfl⟩
  intro i hi
  exact List.count_eq_one_of_mem (List.nodup_reverse.mpr hnd)
    (List.mem_reverse.mpr ((hmem i).mpr hi))

/-- C7 witness: the traversal of the `tensor.cc` graph from its root `w`. -/
theorem c7_witness :
    (topoOrder mainState 3).Nodup ∧
    (0 ∈ topoOrder mainState 3 ↔ Reaches mainState 3 0) :=
  ⟨(c7_topological_order mainState 3 (by decide)).2.1,
   (c7_topological_order mainState 3 (by decide)).1 0⟩

/-- `accumGrad` touches only the gradient of its target node: rules and data
everywhere, and gradients of other nodes, are unchanged. -/
lemma accumGrad_preserves {s : GraphState} {k : Nat} {inc : List ℚ} {t : GraphState}
    (h : accumGrad s k inc = some t) :
    (∀ j : Nat, t[j]?.map Tensor.rule = s[j]?.map Tensor.rule) ∧
    (∀ j : Nat, t[j]?.map Tensor.data = s[j]?.map Tensor.data) ∧
    (∀ r : Nat, r ≠ k → gradOf t r = gradOf s r) := by
  unfold accumGrad at h
  cases hk : s[k]? with
  | none =>
    rw [hk] at h
    dsimp only at h
    obtain rfl := Option.some.inj h
    exact ⟨fun j => rfl, fun j => rfl, fun r _ => rfl⟩
  | some n =>
    rw [hk] at h
    dsimp only at h
    cases hb : bcastOp (· + ·) n.grad inc with
    | none => rw [hb] at h; exact Option.noConfusion h
    | some g =>
      rw [hb] at h
      simp only [Option.map_some'] at h
      obtain rfl := Option.some.inj h
      refine ⟨?_, ?_, ?_⟩
      · intro j
        by_cases hjk : j = k
        · subst hjk
          rw [List.getElem?_set_eq_of_lt _ (getElem?_some_lt hk), hk]
          rfl
        · rw [List.getElem?_set_ne (fun he => hjk he.symm)]
      · intro j
        by_cases hjk : j = k
        · subst hjk
          rw [List.getElem?_set_eq_of_lt _ (getElem?_some_lt hk), hk]
          rfl
        · rw [List.getElem?_set_ne (fun he => hjk he.symm)]
      · intro r hr
        unfold gradOf
        rw [List.getElem?_set_ne (fun he => hr he.symm)]

/-- The seeding assignment `setGrad` likewise only writes its target's
gradient, and writes exactly the given array when the node exists. -/
lemma setGrad_preserves (s : GraphState) (k : Nat) (g : List ℚ) :
    (∀ j : Nat, (setGrad s k g)[j]?.map Tensor.rule = s[j]?.map Tensor.rule) ∧
    (∀ j : Nat, (setGrad s k g)[j]?.map Tensor.data = s[j]?.map Tensor.data) ∧
    (∀ r : Nat, r ≠ k → gradOf (setGrad s k g) r = gradOf s r) ∧
    (k < s.length → gradOf (setGrad s k g) k = g) := by
  unfold setGrad
  cases hk : s[k]? with
  | none =>
    exact ⟨fun j => rfl, fun j => rfl, fun r _ => rfl,
      fun hlt => absurd (List.getElem?_eq_none_iff.mp hk) (Nat.not_le.mpr hlt)⟩
  | some n =>
    refine ⟨?_, ?_, ?_, ?_⟩
    · intro j
      by_cases hjk : j = k
      · subst hjk
        rw [List.getElem?_set_eq_of_lt _ (getElem?_some_lt hk), hk]
        rfl
      · rw [List.getElem?_set_ne (fun he => hjk he.symm)]
    · intro j
      by_cases hjk : j = k
      · subst hjk
        rw [List.getElem?_set_eq_of_lt _ (getElem?_some_lt hk), hk]
        rfl
      · rw [List.getElem?_set_ne (fun he => hjk he.symm)]
    · intro r hr
      unfold gradOf
      rw [List.getElem?_set_ne (fun he => hr he.symm)]
    · intro hlt
      unfold gradOf
      rw [List.getElem?_set_eq_of_lt _ (getElem?_some_lt hk)]
      rfl

/-- Running the backward rule of a node `i ≤ root` (in a state whose rules
agree with a well-formed original) never changes rules, data, or the
gradient of `root`: the closure's captured operands sit strictly below `i`. -/
lemma runBackwardStep_preserves_root {st0 s t : GraphState} {i root : Nat}
    (hw : wfB st0 = true)
    (hrule : ∀ j : Nat, s[j]?.map Tensor.rule = st0[j]?.map Tensor.rule)
    (hi : i ≤ root)
    (h : runBackwardStep s i = some t) :
    (∀ j : Nat, t[j]?.map Tensor.rule = s[j]?.map Tensor.rule) ∧
    (∀ j : Nat, t[j]?.map Tensor.data = s[j]?.map Tensor.data) ∧
    gradOf t root = gradOf s root := by
  unfold runBackwardStep at h
  cases hk : s[i]? with
  | none =>
    rw [hk] at h
    dsimp only at h
    obtain rfl := Option.some.inj h
    exact ⟨fun j => rfl, fun j => rfl, rfl⟩
  | some n =>
    rw [hk] at h
    dsimp only at h
    have hr0 : st0[i]?.map Tensor.rule = some n.rule := by
      rw [← hrule i, hk]
      rfl
    cases hm : st0[i]? with
    | none => rw [hm] at hr0; exact Option.noConfusion hr0
    | some m =>
      have hmr : m.rule = n.rule := by
        rw [hm] at hr0
        simpa using hr0
      have hrb : ruleBound i m.rule = true := wfB_rule hw hm
      cases hnr : n.rule with
      | noop =>
        rw [hnr] at h
        dsimp only at h
        obtain rfl := Option.some.inj h
        exact ⟨fun j => rfl, fun j => rfl, rfl⟩
      | addR a b =>
        have hab : a < i ∧ b < i := by
          rw [hmr, hnr] at hrb
          unfold ruleBound at hrb
          simpa using hrb
        have ha : root ≠ a := (Nat.ne_of_lt (Nat.lt_of_lt_of_le hab.1 hi)).symm
        have hb : root ≠ b := (Nat.ne_of_lt (Nat.lt_of_lt_of_le hab.2 hi)).symm
        rw [hnr] at h
        dsimp only at h
        simp only [Option.bind_eq_bind] at h
        obtain ⟨s1, h1, h2⟩ := Option.bind_eq_some.mp h
        have p1 := accumGrad_preserves h1
        have p2 := accumGrad_preserves h2
        exact ⟨fun j => (p2.1 j).trans (p1.1 j), fun j => (p2.2.1 j).trans (p1.2.1 j),
          (p2.2.2 root hb).trans (p1.2.2 root ha)⟩
      | mulR a b =>
        have hab : a < i ∧ b < i := by
          rw [hmr, hnr] at hrb
          unfold ruleBound at hrb
          simpa using hrb
        have ha : root ≠ a := (Nat.ne_of_lt (Nat.lt_of_lt_of_le hab.1 hi)).symm
        have hb : root ≠ b := (Nat.ne_of_lt (Nat.lt_of_lt_of_le hab.2 hi)).symm
        rw [hnr] at h
        dsimp only at h
        simp only [Option.bind_eq_bind] at h
        obtain ⟨t1, _, h2⟩ := Option.bind_eq_some.mp h
        obtain ⟨s1, h3, h4⟩ := Option.bind_eq_some.mp h2
        obtain ⟨t2, _, h6⟩ := Option.bind_eq_some.mp h4
        have p1 := accumGrad_preserves h3
        have p2 := accumGrad_preserves h6
        exact ⟨fun j => (p2.1 j).trans (p1.1 j), fun j => (p2.2.1 j).trans (p1.2.1 j),
          (p2.2.2 root hb).trans (p1.2.2 root ha)⟩

/-- Folding the backward rules over a list of nodes all `≤ root` leaves the
root's gradient unchanged. -/
lemma foldlM_preserves_root {st0 : GraphState} {root : Nat} (hw : wfB st0 = true) :
    ∀ (l : List Nat), (∀ i ∈ l, i ≤ root) →
    ∀ s, (∀ j : Nat, s[j]?.map Tensor.rule = st0[j]?.map Tensor.rule) →
    ∀ t, l.foldlM runBackwardStep s = some t →
    gradOf t root = gradOf s root := by
  intro l
  induction l with
  | nil =>
    intro _ s _ t h
    obtain rfl := Option.some.inj h
    rfl
  | cons i l ih =>
    intro hle s hrule t h
    rw [List.foldlM_cons] at h
    simp only [Option.bind_eq_bind] at h
    obtain ⟨s1, h1, h2⟩ := Option.bind_eq_some.mp h
    have p := runBackwardStep_preserves_root hw hrule (hle i (List.mem_cons_self i l)) h1
    have hrest := ih (fun x hx => hle x (List.mem_cons_of_mem i hx)) s1
      (fun j => (p.1 j).trans (hrule j)) t h2
    rw [hrest, p.2.2]

/-- C10. After `backward(root)` returns, the root's gradient is exactly
`ones_like(root.value)`, whatever it held before: the seed overwrites it,
and no backward rule of a reachable node writes into the root, since every
captured operand index is strictly below its node and hence below the root. -/
theorem c10_root_gradient (st : GraphState) (root : Nat) (st' : GraphState)
    (hw : wfB st = true) (hr : root < st.length)
    (hb : backward st root = some st') :
    gradOf st' root = onesLike (dataOf st root) := by
  have hp := wfB_prevOf hw
  obtain ⟨_, hmem, _⟩ := topoOrder_spec st root hw
  have hle : ∀ i ∈ (topoOrder st root).reverse, i ≤ root := by
    intro i hi
    exact reaches_le hp ((hmem i).mp (List.mem_reverse.mp hi))
  have hset := setGrad_preserves st root (onesLike (dataOf st root))
  have hfold := foldlM_preserves_root hw (topoOrder st root).reverse hle
    (setGrad st root (onesLike (dataOf st root))) (fun j => hset.1 j) st' hb
  rw [hfold, hset.2.2.2 hr]

/-- C10 witness: the root gradient after `backward` on the `tensor.cc`
graph is `[1.0]`. -/
theorem c10_witness :
    gradOf
      [(⟨[2], [7], .noop, [], ""⟩ : Tensor), ⟨[3], [2], .noop, [], ""⟩,
       ⟨[5], [2], .addR 0 1, [0, 1], "+"⟩, ⟨[10], [1], .mulR 2 0, [2, 0], "*"⟩] 3 =
      onesLike (dataOf mainState 3) :=
  c10_root_gradient mainState 3
    [⟨[2], [7], .noop, [], ""⟩, ⟨[3], [2], .noop, [], ""⟩,
     ⟨[5], [2], .addR 0 1, [0, 1], "+"⟩, ⟨[10], [1], .mulR 2 0, [2, 0], "*"⟩]
    (by decide) (by decide)
    (by norm_num [backward, topoOrder, buildTopo, prevOf, mainState, dataOf, gradOf,
      setGrad, accumGrad, runBackwardStep, bcastOp, onesLike, List.replicate_succ])

end Autograd
